import Mathlib

/-
  Verification of the LLM-Subtitles pipeline core.

  Shallow embedding of the segmentation / transcription / post-processing /
  translation pipeline from:
    - utils/translator.py   (translate_segments, _translate_single_segment_fallback)
    - utils/transcriber.py  (_split_long_segments, _deduplicate_segments,
                             _filter_hallucinations, _transcribe_single_segment,
                             transcribe_audio reassembly)
    - utils/vad.py          (detect_speech_segments)

  Python floats are modelled as rationals, ints as Nat or Int, dict-based
  segments as a record.  External providers (LLM translation, Whisper, ffmpeg)
  are modelled as oracles: functions from call position and attempt number to
  a response or an error, quantifying over every possible provider behavior.
-/

namespace LLMSubs

/-- Python str.strip(): drop whitespace from both ends. -/
def pyStrip (s : String) : String :=
  String.mk (((s.data.dropWhile Char.isWhitespace).reverse.dropWhile Char.isWhitespace).reverse)

/-- A subtitle segment: the dict with keys start, end, text and the optional
no_speech_prob (0.0 when absent, matching the getattr default). -/
structure Seg where
  start : ℚ
  stop : ℚ
  text : String
  noSpeechProb : ℚ
deriving Repr, DecidableEq

/-! ## Translator (utils/translator.py) -/

/-- One item of the provider's parsed JSON segments list.  The Python code
keeps an item only when both keys id and text are present; ids that are not
ints behave (for both comparisons the code performs) like out-of-range ints. -/
structure RespItem where
  rid : Option Int
  rtext : Option String
deriving Repr, DecidableEq

/-- Python dict assignment: replace the value at an existing key, otherwise
append the new binding. -/
def insertAssoc (m : List (Int × String)) (k : Int) (v : String) : List (Int × String) :=
  if m.any (fun p => p.1 == k) then
    m.map (fun p => if p.1 == k then (k, v) else p)
  else m ++ [(k, v)]

/-- translated_map built by the dict comprehension over items that carry both
an id and a text; a duplicated id keeps the last value. -/
def buildMap (items : List RespItem) : List (Int × String) :=
  items.foldl (fun m it =>
    match it.rid, it.rtext with
    | some k, some v => insertAssoc m k v
    | _, _ => m) []

/-- Dict lookup. -/
def lookupAssoc (m : List (Int × String)) (k : Int) : Option String :=
  (m.find? (fun p => p.1 == k)).map (fun p => p.2)

/-- The translation provider, as an oracle.  batchCall takes the batch's
global start offset and the attempt number; singleCall takes the global index
of the segment and the attempt number.  An error value models a raised
exception (or a response whose parsing raises). -/
structure Provider where
  batchCall : Nat → Nat → Except Unit (List RespItem)
  singleCall : Nat → Nat → Except Unit String

/-- The whole-batch retry loop of translate_segments: while attempt < 3,
call the provider; on an exception keep the previous map and retry; on a
response whose map size equals the batch length stop with success; otherwise
keep the (incomplete) map and retry.  Returns the final map, the success
flag and the number of calls made. -/
def batchGo (call : Nat → Except Unit (List RespItem)) (blen : Nat) :
    Nat → Nat → List (Int × String) → List (Int × String) × Bool × Nat
  | attempt, 0, m => (m, false, attempt)
  | attempt, r + 1, m =>
    match call attempt with
    | .error _ => batchGo call blen (attempt + 1) r m
    | .ok items =>
      if (buildMap items).length = blen then (buildMap items, true, attempt + 1)
      else batchGo call blen (attempt + 1) r (buildMap items)

/-- The per-segment fallback retry loop of _translate_single_segment_fallback:
for each attempt, on an exception retry, on a response whose stripped text is
nonempty return it, otherwise retry; when attempts are exhausted return the
original text.  Returns the text and the number of calls made. -/
def fallbackGo (call : Nat → Except Unit String) (orig : String) :
    Nat → Nat → String × Nat
  | attempt, 0 => (orig, attempt)
  | attempt, r + 1 =>
    match call attempt with
    | .error _ => fallbackGo call orig (attempt + 1) r
    | .ok s => if pyStrip s = "" then fallbackGo call orig (attempt + 1) r else (pyStrip s, attempt + 1)

/-- _translate_single_segment_fallback: two attempts, then the original text. -/
def translateSingleSegmentFallback (call : Nat → Except Unit String) (orig : String) :
    String × Nat :=
  fallbackGo call orig 0 2

/-- Output rows of one batch: one row per original segment, in order, with the
original start and end; the text comes from the final map when the local id is
present, and from the individual fallback otherwise. -/
def perBatchOut (P : Provider) (i : Nat) (m : List (Int × String)) (batch : List Seg) :
    List Seg :=
  batch.enum.map (fun jp =>
    Seg.mk jp.2.start jp.2.stop
      (match lookupAssoc m (jp.1 : Int) with
       | some t => t
       | none => (translateSingleSegmentFallback (P.singleCall (i + jp.1)) jp.2.text).1)
      0)

/-- Bookkeeping for the instrumented translator: the output rows, the number
of whole-batch provider calls and the number of individual fallback
translations performed. -/
structure TransStats where
  out : List Seg
  batchCalls : Nat
  fallbackCalls : Nat
deriving Repr, DecidableEq

def combineStats (a b : TransStats) : TransStats :=
  TransStats.mk (a.out ++ b.out) (a.batchCalls + b.batchCalls) (a.fallbackCalls + b.fallbackCalls)

/-- Process one batch: run the retry loop, emit one output row per segment,
count one fallback per local id absent from the final map. -/
def batchResult (P : Provider) (i : Nat) (batch : List Seg) : TransStats :=
  TransStats.mk
    (perBatchOut P i (batchGo (P.batchCall i) batch.length 0 3 []).1 batch)
    (batchGo (P.batchCall i) batch.length 0 3 []).2.2
    ((List.range batch.length).countP
      (fun (j : Nat) => ((lookupAssoc (batchGo (P.batchCall i) batch.length 0 3 []).1 (j : Int)).isNone : Bool)))

/-- The batch loop of translate_segments: peel off batch_size segments at a
time.  Written with the first batch element as the list head, hence meaningful
for every batch size at least 1 (in the Python code a zero step would raise);
the fuel argument only bounds the number of batches and is set to the number
of segments, which always suffices since every batch is nonempty. -/
def translateGo (P : Provider) (bs : Nat) : Nat → Nat → List Seg → TransStats
  | 0, _, _ => TransStats.mk [] 0 0
  | _ + 1, _, [] => TransStats.mk [] 0 0
  | fuel + 1, i, h :: t =>
    combineStats (batchResult P i (h :: t.take (bs - 1)))
      (translateGo P bs fuel (i + (h :: t.take (bs - 1)).length) (t.drop (bs - 1)))

/-- translate_segments, instrumented. -/
def translate_segments (P : Provider) (segs : List Seg) (bs : Nat) : TransStats :=
  translateGo P bs segs.length 0 segs

/-- Projection to the timing skeleton of a segment list. -/
def timingOf (segs : List Seg) : List (ℚ × ℚ) :=
  segs.map (fun s => (s.start, s.stop))

theorem perBatchOut_timing (P : Provider) (i : Nat) (m : List (Int × String))
    (batch : List Seg) : timingOf (perBatchOut P i m batch) = timingOf batch := by
  unfold timingOf perBatchOut
  rw [List.map_map]
  have h2 : batch.map (fun s => (s.start, s.stop)) =
      (batch.enum.map Prod.snd).map (fun s => (s.start, s.stop)) := by
    rw [List.enum_map_snd]
  rw [h2, List.map_map]
  rfl

theorem translateGo_timing (P : Provider) (bs : Nat) :
    ∀ (fuel : Nat) (segs : List Seg) (i : Nat), segs.length ≤ fuel →
      timingOf (translateGo P bs fuel i segs).out = timingOf segs := by
  intro fuel
  induction fuel with
  | zero =>
    intro segs i hlen
    rw [Nat.le_zero] at hlen
    rw [List.length_eq_zero] at hlen
    subst hlen
    rfl
  | succ n ih =>
    intro segs i hlen
    match segs with
    | [] => rfl
    | h :: t =>
      show timingOf (combineStats (batchResult P i (h :: t.take (bs - 1)))
        (translateGo P bs n (i + (h :: t.take (bs - 1)).length) (t.drop (bs - 1)))).out =
        timingOf (h :: t)
      have hrec := ih (t.drop (bs - 1)) (i + (h :: t.take (bs - 1)).length)
        (by simp only [List.length_drop]; simp only [List.length_cons] at hlen; omega)
      simp only [combineStats, timingOf, List.map_append] at *
      have hb := perBatchOut_timing P i
        (batchGo (P.batchCall i) (h :: t.take (bs - 1)).length 0 3 []).1 (h :: t.take (bs - 1))
      simp only [timingOf] at hb
      rw [show (batchResult P i (h :: t.take (bs - 1))).out =
        perBatchOut P i (batchGo (P.batchCall i) (h :: t.take (bs - 1)).length 0 3 []).1
          (h :: t.take (bs - 1)) from rfl]
      rw [hb, hrec]
      rw [← List.map_append, List.cons_append, List.take_append_drop]

theorem translate_segments_timing (P : Provider) (segs : List Seg) (bs : Nat) :
    timingOf (translate_segments P segs bs).out = timingOf segs :=
  translateGo_timing P bs segs.length segs 0 (Nat.le_refl _)

/-- Claim C1: for every input segment list and every provider behavior
(errors, missing ids, malformed responses included), translate_segments
returns one output per input, in input order, and the k-th output carries
exactly the k-th input's start and end. -/
theorem claim_C1_translate_shape (P : Provider) (segs : List Seg) (bs : Nat) :
    (translate_segments P segs bs).out.length = segs.length ∧
    ∀ k : Nat, ((translate_segments P segs bs).out[k]?).map (fun s => (s.start, s.stop)) =
      (segs[k]?).map (fun s => (s.start, s.stop)) := by
  have h := translate_segments_timing P segs bs
  constructor
  · have h2 := congrArg List.length h
    simpa [timingOf] using h2
  · intro k
    have h2 := congrArg (fun l => l[k]?) h
    simpa [timingOf, List.getElem?_map] using h2

/-- Claim C8: the per-segment fallback makes at most 2 attempts; if every
attempt raises or yields empty text the original text is returned verbatim
(no exception), and otherwise the result is the stripped text of some
successful attempt - so the original-language text can appear in the output
only through this identity fallback. -/
theorem claim_C8_single_fallback (call : Nat → Except Unit String) (orig : String) :
    (translateSingleSegmentFallback call orig).2 ≤ 2 ∧
    ((∀ a, a < 2 → ∀ s, call a = Except.ok s → pyStrip s = "") →
      (translateSingleSegmentFallback call orig).1 = orig) ∧
    ((translateSingleSegmentFallback call orig).1 = orig ∨
      ∃ a, a < 2 ∧ ∃ s, call a = Except.ok s ∧ pyStrip s ≠ "" ∧
        (translateSingleSegmentFallback call orig).1 = pyStrip s) := by
  unfold translateSingleSegmentFallback
  rcases h0 : call 0 with u0 | s0
  · rcases h1 : call 1 with u1 | s1
    · refine ⟨?_, ?_, ?_⟩ <;> simp [fallbackGo, h0, h1]
    · by_cases hs1 : pyStrip s1 = ""
      · refine ⟨?_, ?_, ?_⟩ <;> simp [fallbackGo, h0, h1, hs1]
      · refine ⟨?_, ?_, ?_⟩
        · simp [fallbackGo, h0, h1, hs1]
        · intro hall; exact absurd (hall 1 (by omega) s1 h1) hs1
        · right; exact ⟨1, by omega, s1, h1, hs1, by simp [fallbackGo, h0, h1, hs1]⟩
  · by_cases hs0 : pyStrip s0 = ""
    · rcases h1 : call 1 with u1 | s1
      · refine ⟨?_, ?_, ?_⟩ <;> simp [fallbackGo, h0, h1, hs0]
      · by_cases hs1 : pyStrip s1 = ""
        · refine ⟨?_, ?_, ?_⟩ <;> simp [fallbackGo, h0, h1, hs0, hs1]
        · refine ⟨?_, ?_, ?_⟩
          · simp [fallbackGo, h0, h1, hs0, hs1]
          · intro hall; exact absurd (hall 1 (by omega) s1 h1) hs1
          · right; exact ⟨1, by omega, s1, h1, hs1, by simp [fallbackGo, h0, h1, hs0, hs1]⟩
    · refine ⟨?_, ?_, ?_⟩
      · simp [fallbackGo, h0, hs0]
      · intro hall; exact absurd (hall 0 (by omega) s0 h0) hs0
      · right; exact ⟨0, by omega, s0, h0, hs0, by simp [fallbackGo, h0, hs0]⟩

/-- Witness for C8: a provider that always raises leaves the original text. -/
theorem claim_C8_witness :
    (translateSingleSegmentFallback (fun _ => Except.error ()) "hola").1 = "hola" := by
  have h := claim_C8_single_fallback (fun _ => Except.error ()) "hola"
  refine h.2.1 ?_
  intro a ha s hs
  simp at hs

theorem insertAssoc_keys (m : List (Int × String)) (k : Int) (v : String) :
    (insertAssoc m k v).map Prod.fst =
      if k ∈ m.map Prod.fst then m.map Prod.fst else m.map Prod.fst ++ [k] := by
  unfold insertAssoc
  by_cases h : m.any (fun p => p.1 == k) = true
  · rw [if_pos h]
    have hmem : k ∈ m.map Prod.fst := by
      rcases List.any_eq_true.1 h with ⟨p, hp, hb⟩
      exact List.mem_map.2 ⟨p, hp, by simpa using hb⟩
    rw [if_pos hmem, List.map_map]
    apply List.map_congr_left
    intro p hp
    simp only [Function.comp_apply]
    by_cases hpk : (p.1 == k) = true
    · rw [if_pos hpk]
      have hk : p.1 = k := by simpa using hpk
      simp [hk]
    · rw [if_neg hpk]
  · rw [if_neg h]
    have hmem : k ∉ m.map Prod.fst := by
      intro hk
      rcases List.mem_map.1 hk with ⟨p, hp, hpk⟩
      exact h (List.any_eq_true.2 ⟨p, hp, by simp [hpk]⟩)
    rw [if_neg hmem, List.map_append]
    rfl

/-- The fold that builds translated_map, abstracted over the initial map. -/
def buildMapFrom (m : List (Int × String)) (items : List RespItem) : List (Int × String) :=
  items.foldl (fun m it =>
    match it.rid, it.rtext with
    | some k, some v => insertAssoc m k v
    | _, _ => m) m

theorem buildMap_eq_from (items : List RespItem) : buildMap items = buildMapFrom [] items := rfl

theorem buildMapFrom_keys_nodup :
    ∀ (items : List RespItem) (m : List (Int × String)),
      (m.map Prod.fst).Nodup → ((buildMapFrom m items).map Prod.fst).Nodup := by
  intro items
  induction items with
  | nil => intro m hm; exact hm
  | cons it rest ih =>
    intro m hm
    show ((buildMapFrom (match it.rid, it.rtext with
      | some k, some v => insertAssoc m k v
      | _, _ => m) rest).map Prod.fst).Nodup
    apply ih
    cases hr : it.rid with
    | none => simpa [hr] using hm
    | some k =>
      cases ht : it.rtext with
      | none => simpa [hr, ht] using hm
      | some v =>
        simp only [hr, ht]
        rw [insertAssoc_keys]
        by_cases hk : k ∈ m.map Prod.fst
        · rw [if_pos hk]; exact hm
        · rw [if_neg hk]
          simp [List.nodup_append, hm, hk]

theorem buildMap_keys_nodup (items : List RespItem) : ((buildMap items).map Prod.fst).Nodup := by
  rw [buildMap_eq_from]
  exact buildMapFrom_keys_nodup items [] (by simp)

theorem lookupAssoc_eq_none (m : List (Int × String)) (k : Int) :
    lookupAssoc m k = none ↔ k ∉ m.map Prod.fst := by
  unfold lookupAssoc
  rw [Option.map_eq_none']
  rw [List.find?_eq_none]
  constructor
  · intro h hk
    rcases List.mem_map.1 hk with ⟨p, hp, hpk⟩
    exact absurd (by simp [hpk]) (h p hp)
  · intro h p hp hbeq
    exact h (List.mem_map.2 ⟨p, hp, by simpa using hbeq⟩)

theorem countP_range_mem (K : List Int) (N : Nat) (hnd : K.Nodup)
    (hb : ∀ k ∈ K, 0 ≤ k ∧ k < (N : Int)) :
    (List.range N).countP (fun (j : Nat) => decide ((j : Int) ∈ K)) = K.length := by
  rw [List.countP_eq_length_filter]
  have hFnd : ((List.range N).filter (fun (j : Nat) => decide ((j : Int) ∈ K))).Nodup :=
    (List.nodup_range N).filter _
  have hinj : Function.Injective (fun n : Nat => (n : Int)) := by
    intro a b hab
    simpa using hab
  have hperm : (((List.range N).filter (fun (j : Nat) => decide ((j : Int) ∈ K))).map
      (fun n : Nat => (n : Int))).Perm K := by
    rw [List.perm_ext_iff_of_nodup (List.Nodup.map hinj hFnd) hnd]
    intro x
    constructor
    · intro hx
      rcases List.mem_map.1 hx with ⟨j, hj, hjx⟩
      rcases List.mem_filter.1 hj with ⟨hjr, hjK⟩
      rw [← hjx]
      exact of_decide_eq_true hjK
    · intro hx
      rcases hb x hx with ⟨hx0, hxN⟩
      have hco : ((x.toNat : Nat) : Int) = x := Int.toNat_of_nonneg hx0
      refine List.mem_map.2 ⟨x.toNat, List.mem_filter.2 ⟨List.mem_range.2 (by omega), ?_⟩, hco⟩
      rw [decide_eq_true_eq, hco]
      exact hx
  calc ((List.range N).filter (fun (j : Nat) => decide ((j : Int) ∈ K))).length
      = (((List.range N).filter (fun (j : Nat) => decide ((j : Int) ∈ K))).map
          (fun n : Nat => (n : Int))).length := (List.length_map _ _).symm
    _ = K.length := hperm.length_eq

theorem countP_missing (m : List (Int × String)) (N : Nat)
    (hnd : (m.map Prod.fst).Nodup)
    (hb : ∀ k ∈ m.map Prod.fst, 0 ≤ k ∧ k < (N : Int)) :
    (List.range N).countP (fun (j : Nat) => ((lookupAssoc m (j : Int)).isNone : Bool)) = N - m.length := by
  have hsplit := List.length_eq_countP_add_countP
    (fun j : Nat => decide ((j : Int) ∈ m.map Prod.fst)) (List.range N)
  rw [List.length_range] at hsplit
  have hmem := countP_range_mem (m.map Prod.fst) N hnd hb
  have hcongr : (List.range N).countP (fun (j : Nat) => ((lookupAssoc m (j : Int)).isNone : Bool)) =
      (List.range N).countP
        (fun j : Nat => decide (¬ (decide ((j : Int) ∈ m.map Prod.fst)) = true)) := by
    apply List.countP_congr
    intro j hj
    by_cases hmemj : (j : Int) ∈ m.map Prod.fst
    · have : lookupAssoc m (j : Int) ≠ none := by
        rw [Ne, lookupAssoc_eq_none]
        simpa using hmemj
      simp [Option.isNone_iff_eq_none, this, hmemj]
    · have : lookupAssoc m (j : Int) = none := (lookupAssoc_eq_none m (j : Int)).2 hmemj
      simp [Option.isNone_iff_eq_none, this, hmemj]
  rw [hcongr]
  have hlenm : (m.map Prod.fst).length = m.length := List.length_map m Prod.fst
  omega

theorem translateGo_nil (P : Provider) (bs : Nat) :
    ∀ (fuel i : Nat), translateGo P bs fuel i [] = TransStats.mk [] 0 0 := by
  intro fuel i
  cases fuel <;> rfl

/-- When the whole input fits in one batch, translate_segments is exactly the
processing of that single batch. -/
theorem translate_single_batch (P : Provider) (segs : List Seg) (bs : Nat)
    (hne : segs ≠ []) (hbs : segs.length ≤ bs) :
    translate_segments P segs bs = combineStats (batchResult P 0 segs) (TransStats.mk [] 0 0) := by
  match segs, hne with
  | h :: t, _ =>
    have hlen : t.length + 1 ≤ bs := by simpa using hbs
    have htake : t.take (bs - 1) = t := List.take_of_length_le (by omega)
    have hdrop : t.drop (bs - 1) = [] := List.drop_eq_nil_of_le (by omega)
    show translateGo P bs (h :: t).length 0 (h :: t) = _
    rw [List.length_cons]
    show combineStats (batchResult P 0 (h :: t.take (bs - 1)))
        (translateGo P bs t.length (0 + (h :: t.take (bs - 1)).length) (t.drop (bs - 1))) = _
    rw [htake, hdrop, translateGo_nil]

theorem batchGo_const_error (call : Nat → Except Unit (List RespItem)) (blen : Nat)
    (hc : ∀ a, call a = Except.error ()) :
    batchGo call blen 0 3 [] = ([], false, 3) := by
  simp [batchGo, hc]

theorem batchGo_const_incomplete (call : Nat → Except Unit (List RespItem))
    (items : List RespItem) (blen : Nat)
    (hc : ∀ a, call a = Except.ok items) (hne : (buildMap items).length ≠ blen) :
    batchGo call blen 0 3 [] = (buildMap items, false, 3) := by
  simp [batchGo, hc, hne]

theorem translate_out_length (P : Provider) (segs : List Seg) (bs : Nat) :
    (translate_segments P segs bs).out.length = segs.length := by
  have h2 := congrArg List.length (translate_segments_timing P segs bs)
  simpa [timingOf] using h2

/-- Counterexample to C7 as stated: a provider that answers the 1-segment
batch with the single id 5 never covers local id 0, yet the whole-batch call
is NOT retried (one call, not three), because the code only compares the
size of the id-to-text map with the batch size. -/
theorem claim_C7_counterexample :
    lookupAssoc
      (batchGo ((Provider.mk (fun _ _ => Except.ok [RespItem.mk (some 5) (some "x")])
        (fun _ _ => Except.error ())).batchCall 0) 1 0 3 []).1 (0 : Int) = none ∧
    (translate_segments
      (Provider.mk (fun _ _ => Except.ok [RespItem.mk (some 5) (some "x")])
        (fun _ _ => Except.error ()))
      [Seg.mk 0 1 "hello" 0] 15).batchCalls = 1 ∧
    (translate_segments
      (Provider.mk (fun _ _ => Except.ok [RespItem.mk (some 5) (some "x")])
        (fun _ _ => Except.error ()))
      [Seg.mk 0 1 "hello" 0] 15).fallbackCalls = 1 := by
  refine ⟨by decide, ?_, ?_⟩ <;> decide

/-- Claim C7 as amended: the whole-batch call is retried (up to 3 attempts,
with a pause between them) when the call raises or when the returned
id-to-text map has a size different from the batch size - not on every
failure to cover the local ids 1:1.  After the retries, exactly one fallback
call is made per local id missing from the last parsed map: a provider that
always raises leads to 3 batch calls and one fallback per segment, and a
provider that consistently returns the same M < N distinct in-range ids for
a single batch of N segments leads to 3 batch calls, exactly N - M fallback
calls and an output of length exactly N. -/
theorem claim_C7_amended :
    (∀ (P : Provider) (segs : List Seg) (bs : Nat), segs ≠ [] → segs.length ≤ bs →
      (∀ a, P.batchCall 0 a = Except.error ()) →
      (translate_segments P segs bs).batchCalls = 3 ∧
      (translate_segments P segs bs).fallbackCalls = segs.length) ∧
    (∀ (P : Provider) (segs : List Seg) (bs : Nat) (items : List RespItem),
      segs ≠ [] → segs.length ≤ bs →
      (∀ a, P.batchCall 0 a = Except.ok items) →
      (∀ p ∈ buildMap items, 0 ≤ p.1 ∧ p.1 < (segs.length : Int)) →
      (buildMap items).length < segs.length →
      (translate_segments P segs bs).batchCalls = 3 ∧
      (translate_segments P segs bs).fallbackCalls = segs.length - (buildMap items).length ∧
      (translate_segments P segs bs).out.length = segs.length) := by
  constructor
  · intro P segs bs hne hbs hc
    rw [translate_single_batch P segs bs hne hbs]
    rw [show combineStats (batchResult P 0 segs) (TransStats.mk [] 0 0) = batchResult P 0 segs by
      simp [combineStats]]
    unfold batchResult
    rw [batchGo_const_error (P.batchCall 0) segs.length hc]
    refine ⟨rfl, ?_⟩
    show (List.range segs.length).countP
      (fun (j : Nat) => ((lookupAssoc [] (j : Int)).isNone : Bool)) = segs.length
    simp [lookupAssoc]
  · intro P segs bs items hne hbs hc hrange hM
    rw [show (translate_segments P segs bs).out.length = segs.length from
      translate_out_length P segs bs]
    rw [translate_single_batch P segs bs hne hbs]
    rw [show combineStats (batchResult P 0 segs) (TransStats.mk [] 0 0) = batchResult P 0 segs by
      simp [combineStats]]
    unfold batchResult
    rw [batchGo_const_incomplete (P.batchCall 0) items segs.length hc (by omega)]
    refine ⟨rfl, ?_, rfl⟩
    show (List.range segs.length).countP
      (fun (j : Nat) => ((lookupAssoc (buildMap items) (j : Int)).isNone : Bool)) =
      segs.length - (buildMap items).length
    apply countP_missing
    · exact buildMap_keys_nodup items
    · intro k hk
      rcases List.mem_map.1 hk with ⟨p, hp, hpk⟩
      rw [← hpk]
      exact hrange p hp

/-- Witness for the amended C7: a 2-segment batch whose provider always
returns only id 0 makes 3 batch calls, 1 fallback call, and 2 outputs. -/
theorem claim_C7_amended_witness :
    (translate_segments
      (Provider.mk (fun _ _ => Except.ok [RespItem.mk (some 0) (some "a")])
        (fun _ _ => Except.error ()))
      [Seg.mk 0 1 "x" 0, Seg.mk 1 2 "y" 0] 15).batchCalls = 3 ∧
    (translate_segments
      (Provider.mk (fun _ _ => Except.ok [RespItem.mk (some 0) (some "a")])
        (fun _ _ => Except.error ()))
      [Seg.mk 0 1 "x" 0, Seg.mk 1 2 "y" 0] 15).fallbackCalls = 2 - 1 ∧
    (translate_segments
      (Provider.mk (fun _ _ => Except.ok [RespItem.mk (some 0) (some "a")])
        (fun _ _ => Except.error ()))
      [Seg.mk 0 1 "x" 0, Seg.mk 1 2 "y" 0] 15).out.length = 2 := by
  have h := claim_C7_amended.2
    (Provider.mk (fun _ _ => Except.ok [RespItem.mk (some 0) (some "a")])
      (fun _ _ => Except.error ()))
    [Seg.mk 0 1 "x" 0, Seg.mk 1 2 "y" 0] 15 [RespItem.mk (some 0) (some "a")]
    (by simp) (by simp) (fun a => rfl) (by decide) (by decide)
  exact ⟨h.1, h.2.1, h.2.2⟩

/-! ## Segment planner (utils/transcriber.py, _split_long_segments) -/

/-- Overlap between adjacent segments, ms. -/
def SEGMENT_OVERLAP_MS : Nat := 10000

/-- stride_ms = max(max_segment_ms - SEGMENT_OVERLAP_MS, max_segment_ms // 2);
in Python the first operand may be negative, in which case the max picks the
second, exactly as Nat truncated subtraction does. -/
def strideOf (maxMs : Nat) : Nat :=
  max (maxMs - SEGMENT_OVERLAP_MS) (maxMs / 2)

/-- The while loop of _split_long_segments for one long interval.  The fuel
only bounds the iteration count; endMs + 1 iterations always suffice when the
stride is positive, since current strictly increases. -/
def splitGo (maxMs endMs startMs : Nat) : Nat → Nat → List (Nat × Nat)
  | _, 0 => []
  | current, fuel + 1 =>
    if current < endMs then
      if 5000 ≤ min (current + maxMs) endMs - current ∨ current = startMs then
        (current, min (current + maxMs) endMs) ::
          splitGo maxMs endMs startMs (current + strideOf maxMs) fuel
      else splitGo maxMs endMs startMs (current + strideOf maxMs) fuel
    else []

/-- _split_long_segments: intervals not longer than max_segment_ms pass
through unchanged; longer ones are split by the overlapping-window loop. -/
def splitLongSegments (segs : List (Nat × Nat)) (maxMs : Nat) : List (Nat × Nat) :=
  segs.flatMap (fun p =>
    if p.2 - p.1 ≤ maxMs then [p] else splitGo maxMs p.2 p.1 p.1 (p.2 + 1))

/-- Number of window starts s, s+stride, s+2*stride, ... that lie before e. -/
def numSubs (s e stride : Nat) : Nat := (e - s + stride - 1) / stride

/-- Modelled from the spec (claim C2's wording): the sub-intervals start at
s, s+stride, s+2*stride, ..., each ends at min(start + max_segment_ms, e),
and one shorter than 5 seconds is dropped unless it starts the interval. -/
def splitSpecOne (s e maxMs : Nat) : List (Nat × Nat) :=
  ((List.range (numSubs s e (strideOf maxMs))).map
    (fun k => (s + k * strideOf maxMs, min (s + k * strideOf maxMs + maxMs) e))).filter
    (fun p => decide (5000 ≤ p.2 - p.1 ∨ p.1 = s))

theorem numSubs_lt (s e stride k : Nat) (hst : 0 < stride) :
    k < numSubs s e stride ↔ s + k * stride < e := by
  unfold numSubs
  have hdm := Nat.div_add_mod (e - s + stride - 1) stride
  have hmod := Nat.mod_lt (e - s + stride - 1) hst
  set n := (e - s + stride - 1) / stride with hn
  constructor
  · intro hk
    have hk1 : k + 1 ≤ n := hk
    have hmul : stride * (k + 1) ≤ stride * n := Nat.mul_le_mul_left stride hk1
    have hms : stride * (k + 1) = stride * k + stride := Nat.mul_succ stride k
    have hcomm : stride * k = k * stride := Nat.mul_comm stride k
    omega
  · intro hlt
    by_contra hk
    push_neg at hk
    have hmul : stride * n ≤ stride * k := Nat.mul_le_mul_left stride hk
    have hcomm : stride * k = k * stride := Nat.mul_comm stride k
    omega

theorem splitGo_spec (maxMs s e : Nat) (hst : 0 < strideOf maxMs) :
    ∀ (m k fuel : Nat), k + m = numSubs s e (strideOf maxMs) → m ≤ fuel →
      splitGo maxMs e s (s + k * strideOf maxMs) fuel =
      ((List.range' k m).map
        (fun j => (s + j * strideOf maxMs, min (s + j * strideOf maxMs + maxMs) e))).filter
        (fun p => decide (5000 ≤ p.2 - p.1 ∨ p.1 = s)) := by
  intro m
  induction m with
  | zero =>
    intro k fuel hk _
    have hke : ¬ (s + k * strideOf maxMs < e) := by
      rw [← numSubs_lt s e (strideOf maxMs) k hst] at *
      omega
    cases fuel with
    | zero => rfl
    | succ f =>
      show (if s + k * strideOf maxMs < e then _ else []) = _
      rw [if_neg hke]
      rfl
  | succ m ih =>
    intro k fuel hk hfuel
    have hke : s + k * strideOf maxMs < e := by
      rw [← numSubs_lt s e (strideOf maxMs) k hst]
      omega
    match fuel, hfuel with
    | f + 1, _ =>
      have hstep : s + k * strideOf maxMs + strideOf maxMs = s + (k + 1) * strideOf maxMs := by
        rw [Nat.succ_mul]
        omega
      have hrec := ih (k + 1) f (by omega) (by omega)
      show (if s + k * strideOf maxMs < e then _ else []) = _
      rw [if_pos hke]
      rw [List.range'_succ, List.map_cons, List.filter_cons]
      by_cases hcond : 5000 ≤ min (s + k * strideOf maxMs + maxMs) e - (s + k * strideOf maxMs) ∨
          s + k * strideOf maxMs = s
      · rw [if_pos hcond, hstep, hrec, if_pos (decide_eq_true hcond)]
      · rw [if_neg hcond, hstep, hrec, if_neg (fun h => hcond (of_decide_eq_true h))]

theorem numSubs_le (s e stride : Nat) (hst : 0 < stride) :
    numSubs s e stride ≤ e + 1 := by
  unfold numSubs
  have hdm := Nat.div_add_mod (e - s + stride - 1) stride
  have hmod := Nat.mod_lt (e - s + stride - 1) hst
  set n := (e - s + stride - 1) / stride with hn
  have hd : e - s ≤ stride * (e - s) := Nat.le_mul_of_pos_left (e - s) hst
  by_contra hc
  push_neg at hc
  have hmul : stride * (e + 2) ≤ stride * n := Nat.mul_le_mul_left stride hc
  have h2 : e - s + 1 ≤ e + 2 := by omega
  have h3 : stride * (e - s + 1) ≤ stride * (e + 2) := Nat.mul_le_mul_left stride h2
  have h4 : stride * (e - s + 1) = stride * (e - s) + stride := Nat.mul_succ stride (e - s)
  omega

theorem splitLong_spec (segs : List (Nat × Nat)) (maxMs : Nat) (hst : 0 < strideOf maxMs) :
    splitLongSegments segs maxMs =
      segs.flatMap (fun p => if p.2 - p.1 ≤ maxMs then [p] else splitSpecOne p.1 p.2 maxMs) := by
  induction segs with
  | nil => simp only [splitLongSegments, List.flatMap_nil]
  | cons p rest ih =>
    simp only [splitLongSegments, List.flatMap_cons]
    simp only [splitLongSegments] at ih
    rw [ih]
    have hhead : (if p.2 - p.1 ≤ maxMs then [p] else splitGo maxMs p.2 p.1 p.1 (p.2 + 1)) =
        (if p.2 - p.1 ≤ maxMs then [p] else splitSpecOne p.1 p.2 maxMs) := by
      by_cases hd : p.2 - p.1 ≤ maxMs
      · rw [if_pos hd, if_pos hd]
      · rw [if_neg hd, if_neg hd]
        have hgo := splitGo_spec maxMs p.1 p.2 hst (numSubs p.1 p.2 (strideOf maxMs)) 0 (p.2 + 1)
          (by omega) (numSubs_le p.1 p.2 (strideOf maxMs) hst)
        simp only [Nat.zero_mul, Nat.add_zero] at hgo
        rw [hgo]
        unfold splitSpecOne
        rw [List.range_eq_range']
    rw [hhead]

/-- Claim C2: for every interval longer than max_segment_ms the planner emits
windows starting at s, s+stride, s+2*stride, ... each ending at
min(start+max_segment_ms, e), dropping windows shorter than 5s unless first;
shorter intervals pass through; and on the spec's concrete example
(700000ms and 50000ms intervals, max 600000, overlap 10000) it emits exactly
the three jobs [0,600000), [590000,700000), [700000,750000). -/
theorem claim_C2_split_plan :
    (∀ (segs : List (Nat × Nat)) (maxMs : Nat), 0 < strideOf maxMs →
      splitLongSegments segs maxMs =
        segs.flatMap (fun p => if p.2 - p.1 ≤ maxMs then [p] else splitSpecOne p.1 p.2 maxMs)) ∧
    splitLongSegments [(0, 700000), (700000, 750000)] 600000 =
      [(0, 600000), (590000, 700000), (700000, 750000)] :=
  ⟨fun segs maxMs h => splitLong_spec segs maxMs h, by decide⟩

/-- Witness for C2 at the spec's concrete inputs. -/
theorem claim_C2_witness :
    0 < strideOf 600000 ∧
    splitLongSegments [(0, 700000), (700000, 750000)] 600000 =
      [(0, 700000), (700000, 750000)].flatMap
        (fun p => if p.2 - p.1 ≤ 600000 then [p] else splitSpecOne p.1 p.2 600000) :=
  ⟨by decide, claim_C2_split_plan.1 [(0, 700000), (700000, 750000)] 600000 (by decide)⟩

/-! ## Parallel transcription executor (utils/transcriber.py, transcribe_audio) -/

/-- The results dict filled in completion order: results[seg_index] = segments,
later assignments overwriting earlier ones, starting from the empty dict. -/
def buildResultsFrom (f0 : Nat → Option (List Seg)) (completions : List (Nat × List Seg)) :
    Nat → Option (List Seg) :=
  completions.foldl (fun f p => fun k => if k = p.1 then some p.2 else f k) f0

def buildResults (completions : List (Nat × List Seg)) : Nat → Option (List Seg) :=
  buildResultsFrom (fun _ => none) completions

/-- Reassembly: for i in range(n): if i in results, extend with results[i]. -/
def reassemble (n : Nat) (f : Nat → Option (List Seg)) : List Seg :=
  (List.range n).flatMap (fun i => (f i).getD [])

theorem buildResultsFrom_absent (completions : List (Nat × List Seg)) :
    ∀ (f0 : Nat → Option (List Seg)) (k : Nat), (∀ p ∈ completions, p.1 ≠ k) →
      buildResultsFrom f0 completions k = f0 k := by
  induction completions with
  | nil => intro f0 k _; rfl
  | cons c rest ih =>
    intro f0 k habs
    show buildResultsFrom (fun k2 => if k2 = c.1 then some c.2 else f0 k2) rest k = f0 k
    rw [ih _ k (fun p hp => habs p (List.mem_cons_of_mem c hp))]
    exact if_neg (fun h => habs c (List.mem_cons_self c rest) h.symm)

theorem buildResultsFrom_present (completions : List (Nat × List Seg)) :
    ∀ (f0 : Nat → Option (List Seg)) (k : Nat) (v : List Seg),
      (completions.map Prod.fst).Nodup → (k, v) ∈ completions →
      buildResultsFrom f0 completions k = some v := by
  induction completions with
  | nil => intro _ _ _ _ hmem; cases hmem
  | cons c rest ih =>
    intro f0 k v hnd hmem
    have hnd2 : (rest.map Prod.fst).Nodup := (List.nodup_cons.1 hnd).2
    rcases List.mem_cons.1 hmem with hc | hrest
    · have hknot : ∀ p ∈ rest, p.1 ≠ k := by
        intro p hp hpk
        have hc1 : c.1 = k := by rw [← hc]
        exact (List.nodup_cons.1 hnd).1 (by
          rw [hc1, ← hpk]
          exact List.mem_map_of_mem Prod.fst hp)
      show buildResultsFrom (fun k2 => if k2 = c.1 then some c.2 else f0 k2) rest k = some v
      rw [buildResultsFrom_absent rest _ k hknot]
      rw [if_pos (by rw [← hc])]
      rw [← hc]
    · exact ih _ k v hnd2 hrest

theorem flatten_eq_range_flatMap (jobs : List (List Seg)) :
    jobs.flatten = (List.range jobs.length).flatMap (fun i => (jobs[i]?).getD []) := by
  induction jobs with
  | nil => rfl
  | cons j js ih =>
    rw [List.flatten_cons, List.length_cons, List.range_succ_eq_map, List.flatMap_cons]
    have hmap : (List.map Nat.succ (List.range js.length)).flatMap
        (fun i => ((j :: js)[i]?).getD []) =
        (List.range js.length).flatMap (fun i => (js[i]?).getD []) := by
      rw [List.flatMap_map]
      apply List.flatMap_congr
      intro a _
      simp [Function.comp, List.getElem?_cons_succ]
    rw [hmap, ← ih]
    simp [List.getElem?_cons_zero]

/-- Claim C3: whatever the completion order (any permutation of the indexed
job results), filling the results dict in completion order and reassembling
by ascending index yields the concatenation of the jobs' segment lists in
job-index order. -/
theorem claim_C3_reassembly_order (jobs : List (List Seg)) (completions : List (Nat × List Seg))
    (hperm : completions.Perm jobs.enum) :
    reassemble jobs.length (buildResults completions) = jobs.flatten := by
  have hkeys : (completions.map Prod.fst).Nodup := by
    rw [(hperm.map Prod.fst).nodup_iff, List.enum_map_fst]
    exact List.nodup_range jobs.length
  have hlook : ∀ k v, (k, v) ∈ completions → jobs[k]? = some v := by
    intro k v hkv
    exact List.mk_mem_enum_iff_getElem?.1 (hperm.subset hkv)
  unfold reassemble
  rw [flatten_eq_range_flatMap]
  apply List.flatMap_congr
  intro i hi
  by_cases hk : ∃ v, (i, v) ∈ completions
  · rcases hk with ⟨v, hv⟩
    rw [show buildResults completions i = some v from
      buildResultsFrom_present completions _ i v hkeys hv]
    rw [hlook i v hv]
  · push_neg at hk
    have habs : ∀ p ∈ completions, p.1 ≠ i := by
      intro p hp hpk
      exact hk p.2 (by rw [← hpk]; exact hp)
    rw [show buildResults completions i = none from
      buildResultsFrom_absent completions _ i habs]
    have hni : jobs[i]? = none := by
      rcases Nat.lt_or_ge i jobs.length with hlt | hge
      · exfalso
        have hsome : ∃ v, jobs[i]? = some v := by
          rcases List.getElem?_eq_some_iff.2 ⟨hlt, rfl⟩ with h
          exact ⟨_, h⟩
        rcases hsome with ⟨v, hv⟩
        have : (i, v) ∈ jobs.enum := List.mk_mem_enum_iff_getElem?.2 hv
        exact hk v (hperm.mem_iff.2 this)
      · exact List.getElem?_eq_none hge
    rw [hni]

/-- Witness for C3: two jobs completing in reverse order. -/
theorem claim_C3_witness :
    reassemble 2 (buildResults
      [(1, [Seg.mk 2 3 "b" 0, Seg.mk 3 4 "c" 0]), (0, [Seg.mk 0 1 "a" 0])]) =
      [[Seg.mk 0 1 "a" 0], [Seg.mk 2 3 "b" 0, Seg.mk 3 4 "c" 0]].flatten :=
  claim_C3_reassembly_order
    [[Seg.mk 0 1 "a" 0], [Seg.mk 2 3 "b" 0, Seg.mk 3 4 "c" 0]]
    [(1, [Seg.mk 2 3 "b" 0, Seg.mk 3 4 "c" 0]), (0, [Seg.mk 0 1 "a" 0])]
    (List.Perm.swap _ _ _)

/-- Outcome of the _extract_segment call for one job.  The function runs
ffmpeg via subprocess.run inside a try that catches only CalledProcessError
(returning False); any other exception from spawning the process, such as
FileNotFoundError or OSError, propagates out of _extract_segment - and the
call sits outside the job's own try/except. -/
inductive ExtractOutcome where
  | ok : ExtractOutcome
  | failCaught : ExtractOutcome
  | raiseExc : ExtractOutcome
deriving Repr, DecidableEq

/-- The behavior of the external side of one transcription job: the outcome
of the ffmpeg extraction, and the provider transcript (relative start, end,
text rows) or an exception raised inside the job's try. -/
structure JobBehavior where
  extract : ExtractOutcome
  transcript : Except Unit (List (ℚ × ℚ × String))
deriving Repr

/-- _transcribe_single_segment.  The extraction call precedes the try block:
a caught extraction failure (False) returns (i, []); an uncaught extraction
exception escapes the job (modelled as an error value); inside the try, any
provider exception yields (i, []), and success remaps each row by the clip's
absolute offset. -/
def transcribeSingleSegment (b : JobBehavior) (i : Nat) (startMs : Nat) :
    Except Unit (Nat × List Seg) :=
  match b.extract with
  | .raiseExc => Except.error ()
  | .failCaught => Except.ok (i, [])
  | .ok =>
    match b.transcript with
    | .error _ => Except.ok (i, [])
    | .ok raws => Except.ok (i, raws.map (fun r =>
        Seg.mk (r.1 + (startMs : ℚ) / 1000) (r.2.1 + (startMs : ℚ) / 1000) r.2.2 0))

/-- The executor submits every planned job with its index; each submitted job
either produces a result pair or lets an exception escape. -/
def runJobs (oracle : Nat → JobBehavior) (jobsList : List (Nat × Nat)) :
    List (Except Unit (Nat × List Seg)) :=
  (List.range jobsList.length).map (fun i =>
    transcribeSingleSegment (oracle i) i (jobsList.getD i (0, 0)).1)

/-- The result-collection loop of transcribe_audio, walking futures in
completion order: future.result() re-raises a job's escaped exception, which
the function's outer handler turns into a None return, discarding every
already-collected sibling result. -/
def collectGo : List (Except Unit (Nat × List Seg)) → Option (List (Nat × List Seg))
  | [] => some []
  | Except.error _ :: _ => none
  | Except.ok p :: rest => (collectGo rest).map (fun l => p :: l)

/-- Counterexample to C6 as stated: an extraction failure outside the caught
CalledProcessError class (e.g. ffmpeg cannot be spawned) does NOT yield
(index, []): it escapes the job, and the collection over the completed jobs
returns None although the sibling job produced its own result entry. -/
theorem claim_C6_counterexample :
    transcribeSingleSegment (JobBehavior.mk ExtractOutcome.raiseExc (Except.ok [])) 0 0 =
      Except.error () ∧
    (runJobs (fun j => if j = 0 then JobBehavior.mk ExtractOutcome.raiseExc (Except.ok [])
        else JobBehavior.mk ExtractOutcome.ok (Except.ok []))
      [(0, 1000), (1000, 2000)])[1]? = some (Except.ok (1, [])) ∧
    collectGo (runJobs
      (fun j => if j = 0 then JobBehavior.mk ExtractOutcome.raiseExc (Except.ok [])
        else JobBehavior.mk ExtractOutcome.ok (Except.ok []))
      [(0, 1000), (1000, 2000)]) = none := by
  refine ⟨rfl, rfl, rfl⟩

theorem collectGo_of_error_mem :
    ∀ (completions : List (Except Unit (Nat × List Seg))),
      Except.error () ∈ completions → collectGo completions = none := by
  intro completions
  induction completions with
  | nil => intro h; cases h
  | cons r rest ih =>
    intro hmem
    cases r with
    | error e => rfl
    | ok p =>
      have hrest : Except.error () ∈ rest := by
        rcases List.mem_cons.1 hmem with h | h
        · simp at h
        · exact h
      show (collectGo rest).map (fun l => p :: l) = none
      rw [ih hrest]
      rfl

theorem collectGo_all_ok :
    ∀ (completions : List (Except Unit (Nat × List Seg))),
      (∀ r ∈ completions, r ≠ Except.error ()) →
      ∃ l, collectGo completions = some l ∧ l.map Except.ok = completions := by
  intro completions
  induction completions with
  | nil => intro _; exact ⟨[], rfl, rfl⟩
  | cons r rest ih =>
    intro hok
    rcases ih (fun r2 h2 => hok r2 (List.mem_cons_of_mem r h2)) with ⟨l, hl, hmap⟩
    cases r with
    | error e =>
      exact absurd rfl (hok (Except.error e) (List.mem_cons_self _ _))
    | ok p =>
      refine ⟨p :: l, ?_, ?_⟩
      · show (collectGo rest).map (fun l2 => p :: l2) = some (p :: l)
        rw [hl]
        rfl
      · rw [List.map_cons, hmap]

theorem transcribeSingleSegment_no_raise (b : JobBehavior) (i startMs : Nat)
    (hnr : b.extract ≠ ExtractOutcome.raiseExc) :
    ∃ p, transcribeSingleSegment b i startMs = Except.ok p ∧ p.1 = i := by
  unfold transcribeSingleSegment
  cases hex : b.extract with
  | raiseExc => exact absurd hex hnr
  | failCaught => exact ⟨(i, []), rfl, rfl⟩
  | ok =>
    cases htr : b.transcript with
    | error e => exact ⟨(i, []), rfl, rfl⟩
    | ok raws => exact ⟨_, rfl, rfl⟩

/-- Claim C6 as amended: an extraction failure that _extract_segment catches
(its monitored CalledProcessError, reported as False) and any exception
raised inside the job's try (provider call, parsing, remapping) yield the
job's own index with an empty list and never abort siblings; but an
extraction exception outside the caught class escapes the job, and its
re-raise at future.result() makes transcribe_audio return None, discarding
every sibling's result.  When no job's extraction raises, the executor
collects exactly one result entry per planned job, each carrying its own
index, whatever the completion order; and changing one job's behavior never
changes a sibling's result entry. -/
theorem claim_C6_amended :
    (∀ (b : JobBehavior) (i startMs : Nat),
      b.extract = ExtractOutcome.failCaught ∨
        (b.extract = ExtractOutcome.ok ∧ b.transcript = Except.error ()) →
      transcribeSingleSegment b i startMs = Except.ok (i, [])) ∧
    (∀ (b : JobBehavior) (i startMs : Nat),
      b.extract = ExtractOutcome.raiseExc →
      transcribeSingleSegment b i startMs = Except.error ()) ∧
    (∀ (completions : List (Except Unit (Nat × List Seg))),
      Except.error () ∈ completions → collectGo completions = none) ∧
    (∀ (oracle : Nat → JobBehavior) (jobsList : List (Nat × Nat))
      (completions : List (Except Unit (Nat × List Seg))),
      completions.Perm (runJobs oracle jobsList) →
      (∀ j, (oracle j).extract ≠ ExtractOutcome.raiseExc) →
      ∃ l, collectGo completions = some l ∧ l.length = jobsList.length ∧
        (l.map Prod.fst).Perm (List.range jobsList.length)) ∧
    (∀ (oracle oracle2 : Nat → JobBehavior) (jobsList : List (Nat × Nat)) (kf : Nat),
      (∀ j, j ≠ kf → oracle j = oracle2 j) →
      ∀ j, j ≠ kf → (runJobs oracle jobsList)[j]? = (runJobs oracle2 jobsList)[j]?) := by
  refine ⟨?_, ?_, collectGo_of_error_mem, ?_, ?_⟩
  · intro b i startMs hfail
    rcases hfail with hex | ⟨hex, htr⟩
    · unfold transcribeSingleSegment
      rw [hex]
    · unfold transcribeSingleSegment
      rw [hex, htr]
  · intro b i startMs hex
    unfold transcribeSingleSegment
    rw [hex]
  · intro oracle jobsList completions hperm hnr
    have hok : ∀ r ∈ completions, r ≠ Except.error () := by
      intro r hr
      have hr2 : r ∈ runJobs oracle jobsList := hperm.subset hr
      rcases List.mem_map.1 hr2 with ⟨i, _, hi⟩
      rcases transcribeSingleSegment_no_raise (oracle i) i (jobsList.getD i (0, 0)).1
        (hnr i) with ⟨p, hp, _⟩
      rw [← hi, hp]
      simp
    rcases collectGo_all_ok completions hok with ⟨l, hl, hmap⟩
    have hglen : (runJobs oracle jobsList).length = jobsList.length := by
      unfold runJobs
      rw [List.length_map, List.length_range]
    refine ⟨l, hl, ?_, ?_⟩
    · have h1 := congrArg List.length hmap
      rw [List.length_map] at h1
      rw [h1, hperm.length_eq, hglen]
    · set g : Except Unit (Nat × List Seg) → Nat := fun r2 =>
        match r2 with
        | Except.ok p => p.1
        | Except.error _ => 0 with hg
      have h2 : l.map Prod.fst = completions.map g := by
        rw [← hmap, List.map_map]
        apply List.map_congr_left
        intro p _
        rfl
      have h3 : (runJobs oracle jobsList).map g = List.range jobsList.length := by
        unfold runJobs
        rw [List.map_map]
        have h4 : ∀ i ∈ List.range jobsList.length,
            (g ∘ fun i2 => transcribeSingleSegment (oracle i2) i2 (jobsList.getD i2 (0, 0)).1)
              i = id i := by
          intro i _
          rcases transcribeSingleSegment_no_raise (oracle i) i (jobsList.getD i (0, 0)).1
            (hnr i) with ⟨p, hp, hpi⟩
          show g (transcribeSingleSegment (oracle i) i (jobsList.getD i (0, 0)).1) = i
          rw [hp, hg]
          exact hpi
        rw [List.map_congr_left h4, List.map_id]
      rw [h2, ← h3]
      exact hperm.map g
  · intro oracle oracle2 jobsList kf hagree j hj
    unfold runJobs
    rw [List.getElem?_map, List.getElem?_map]
    by_cases hk : j < jobsList.length
    · rw [List.getElem?_range hk]
      show some (transcribeSingleSegment (oracle j) j _) =
        some (transcribeSingleSegment (oracle2 j) j _)
      rw [hagree j hj]
    · rw [List.getElem?_eq_none (by rw [List.length_range]; omega)]
      rfl

/-- Witness for the amended C6: a caught extraction failure yields its index
with an empty list; a lone escaped exception aborts collection; a no-raise
run over two jobs collects 2 entries whose indices are a permutation of
range 2. -/
theorem claim_C6_amended_witness :
    transcribeSingleSegment (JobBehavior.mk ExtractOutcome.failCaught (Except.ok [])) 3 0 =
      Except.ok (3, []) ∧
    collectGo [Except.error ()] = none ∧
    ∃ l, collectGo (runJobs
        (fun _ => JobBehavior.mk ExtractOutcome.ok (Except.error ())) [(0, 5), (5, 9)]) =
      some l ∧ l.length = 2 ∧ (l.map Prod.fst).Perm (List.range 2) :=
  ⟨claim_C6_amended.1 (JobBehavior.mk ExtractOutcome.failCaught (Except.ok [])) 3 0
    (Or.inl rfl),
   claim_C6_amended.2.2.1 [Except.error ()] (List.mem_cons_self _ _),
   claim_C6_amended.2.2.2.1
    (fun _ => JobBehavior.mk ExtractOutcome.ok (Except.error ())) [(0, 5), (5, 9)]
    (runJobs (fun _ => JobBehavior.mk ExtractOutcome.ok (Except.error ())) [(0, 5), (5, 9)])
    (List.Perm.refl _) (fun j => by intro h; cases h)⟩

/-! ## Post-processor: deduplication (utils/transcriber.py, _deduplicate_segments) -/

/-- Comparison key of the sort: the start time. -/
def segLE (a b : Seg) : Prop := a.start ≤ b.start

instance : DecidableRel segLE := fun a b => inferInstanceAs (Decidable (a.start ≤ b.start))

instance : IsTotal Seg segLE := ⟨fun a b => le_total a.start b.start⟩

instance : IsTrans Seg segLE := ⟨fun _ _ _ hab hbc => le_trans hab hbc⟩

/-- Python's sorted(segments, key=get_start) is a stable sort by start; a
stable sort's output is unique, so the stable insertionSort models it. -/
def sortByStart (segs : List Seg) : List Seg := List.insertionSort segLE segs

/-- The left-to-right pass of _deduplicate_segments: last is deduped[-1],
the already-frozen prefix is kept by the caller. -/
def dedupGo (thr : ℚ) (last : Seg) : List Seg → List Seg
  | [] => [last]
  | c :: rest =>
    if |c.start - last.start| < thr then
      if (pyStrip last.text).length < (pyStrip c.text).length then dedupGo thr c rest
      else dedupGo thr last rest
    else last :: dedupGo thr c rest

theorem sortByStart_pair (a b : Seg) :
    sortByStart [a, b] = if segLE a b then [a, b] else [b, a] := rfl

theorem dedupGo_cons (thr : ℚ) (last c : Seg) (rest : List Seg) :
    dedupGo thr last (c :: rest) =
      if |c.start - last.start| < thr then
        if (pyStrip last.text).length < (pyStrip c.text).length then dedupGo thr c rest
        else dedupGo thr last rest
      else last :: dedupGo thr c rest := rfl

/-- _deduplicate_segments. -/
def deduplicateSegments (segs : List Seg) (thr : ℚ) : List Seg :=
  match sortByStart segs with
  | [] => []
  | h :: t => dedupGo thr h t

/-- Modelled from the spec (claim C4's wording): one step of the scan that
maintains a running accepted list, comparing the candidate against the last
accepted segment. -/
def dedupClaimStep (thr : ℚ) (acc : List Seg) (c : Seg) : List Seg :=
  match acc.getLast? with
  | none => [c]
  | some last =>
    if |c.start - last.start| < thr then
      if (pyStrip last.text).length < (pyStrip c.text).length then acc.dropLast ++ [c] else acc
    else acc ++ [c]

/-- Modelled from the spec: sort by start, then fold the scan step over the
sorted list starting from the empty accepted list. -/
def dedupClaimSpec (segs : List Seg) (thr : ℚ) : List Seg :=
  (sortByStart segs).foldl (dedupClaimStep thr) []

theorem dedupGo_foldl (thr : ℚ) :
    ∀ (rem : List Seg) (acc : List Seg) (last : Seg),
      rem.foldl (dedupClaimStep thr) (acc ++ [last]) = acc ++ dedupGo thr last rem := by
  intro rem
  induction rem with
  | nil => intro acc last; rfl
  | cons c rest ih =>
    intro acc last
    rw [List.foldl_cons]
    have hstep : dedupClaimStep thr (acc ++ [last]) c =
        if |c.start - last.start| < thr then
          (if (pyStrip last.text).length < (pyStrip c.text).length then acc ++ [c]
           else acc ++ [last])
        else (acc ++ [last]) ++ [c] := by
      unfold dedupClaimStep
      rw [List.getLast?_concat]
      rw [List.dropLast_concat]
    rw [hstep]
    by_cases h1 : |c.start - last.start| < thr
    · by_cases h2 : (pyStrip last.text).length < (pyStrip c.text).length
      · rw [if_pos h1, if_pos h2, ih]
        show acc ++ dedupGo thr c rest = acc ++ dedupGo thr last (c :: rest)
        rw [show dedupGo thr last (c :: rest) = dedupGo thr c rest by
          rw [dedupGo_cons, if_pos h1, if_pos h2]]
      · rw [if_pos h1, if_neg h2, ih]
        rw [show dedupGo thr last (c :: rest) = dedupGo thr last rest by
          rw [dedupGo_cons, if_pos h1, if_neg h2]]
    · rw [if_neg h1, ih]
      rw [show dedupGo thr last (c :: rest) = last :: dedupGo thr c rest by
        rw [dedupGo_cons, if_neg h1]]
      rw [List.append_assoc]
      rfl

theorem dedup_eq_claimSpec (segs : List Seg) (thr : ℚ) :
    deduplicateSegments segs thr = dedupClaimSpec segs thr := by
  unfold deduplicateSegments dedupClaimSpec
  cases hs : sortByStart segs with
  | nil => rfl
  | cons h t =>
    rw [List.foldl_cons]
    have h0 : dedupClaimStep thr [] h = [] ++ [h] := rfl
    rw [h0, dedupGo_foldl]
    rfl

/-- Claim C4: deduplication is the sort-then-single-pass scan described by the
spec (keep the longer stripped text among start-adjacent candidates, ties keep
the earlier-accepted one, accept otherwise); in particular for exactly two
segments with |start_a - start_b| < 1 and a strictly longer stripped text_b,
the output is exactly the segment carrying text_b, in either input order. -/
theorem claim_C4_dedup :
    (∀ (segs : List Seg) (thr : ℚ), deduplicateSegments segs thr = dedupClaimSpec segs thr) ∧
    (∀ a b : Seg, |a.start - b.start| < 1 →
      (pyStrip a.text).length < (pyStrip b.text).length →
      deduplicateSegments [a, b] 1 = [b] ∧ deduplicateSegments [b, a] 1 = [b]) := by
  constructor
  · exact dedup_eq_claimSpec
  · intro a b habs hlen
    have habs2 : |b.start - a.start| < 1 := by rw [abs_sub_comm]; exact habs
    have hlen2 : ¬ (pyStrip b.text).length < (pyStrip a.text).length := by omega
    constructor
    · show (match sortByStart [a, b] with
        | [] => [] | h :: t => dedupGo 1 h t) = [b]
      rw [sortByStart_pair]
      by_cases hab : segLE a b
      · rw [if_pos hab]
        show dedupGo 1 a [b] = [b]
        rw [dedupGo_cons, if_pos habs2, if_pos hlen]
        rfl
      · rw [if_neg hab]
        show dedupGo 1 b [a] = [b]
        rw [dedupGo_cons, if_pos habs, if_neg hlen2]
        rfl
    · show (match sortByStart [b, a] with
        | [] => [] | h :: t => dedupGo 1 h t) = [b]
      rw [sortByStart_pair]
      by_cases hba : segLE b a
      · rw [if_pos hba]
        show dedupGo 1 b [a] = [b]
        rw [dedupGo_cons, if_pos habs, if_neg hlen2]
        rfl
      · rw [if_neg hba]
        show dedupGo 1 a [b] = [b]
        rw [dedupGo_cons, if_pos habs2, if_pos hlen]
        rfl

/-- Witness for C4 at concrete segments with equal starts and texts of
lengths 2 and 5. -/
theorem claim_C4_witness :
    deduplicateSegments [Seg.mk 0 1 "hi" 0, Seg.mk 0 2 "hello" 0] 1 =
      [Seg.mk 0 2 "hello" 0] ∧
    deduplicateSegments [Seg.mk 0 2 "hello" 0, Seg.mk 0 1 "hi" 0] 1 =
      [Seg.mk 0 2 "hello" 0] :=
  claim_C4_dedup.2 (Seg.mk 0 1 "hi" 0) (Seg.mk 0 2 "hello" 0)
    (by norm_num) (by decide)

/-- Claim C10: the deduplicated output is sorted by start and consecutive
outputs are at least the threshold apart; the keep-the-longer replacement
never shrinks the gap below the threshold. -/
theorem claim_C10_dedup_gaps (segs : List Seg) (thr : ℚ) :
    List.Chain' (fun x y => x.start ≤ y.start ∧ thr ≤ y.start - x.start)
      (deduplicateSegments segs thr) := by
  have main : ∀ (rem : List Seg) (last : Seg),
      (∀ x ∈ rem, last.start ≤ x.start) → List.Pairwise segLE rem →
      (∃ h2 t2, dedupGo thr last rem = h2 :: t2 ∧ last.start ≤ h2.start) ∧
      List.Chain' (fun x y => x.start ≤ y.start ∧ thr ≤ y.start - x.start)
        (dedupGo thr last rem) := by
    intro rem
    induction rem with
    | nil =>
      intro last _ _
      exact ⟨⟨last, [], rfl, le_refl _⟩, List.chain'_singleton last⟩
    | cons c rest ih =>
      intro last hall hpw
      have hc : ∀ x ∈ rest, c.start ≤ x.start := fun x hx => (List.pairwise_cons.1 hpw).1 x hx
      have hrest : List.Pairwise segLE rest := (List.pairwise_cons.1 hpw).2
      have hcl : last.start ≤ c.start := hall c (List.mem_cons_self c rest)
      by_cases h1 : |c.start - last.start| < thr
      · by_cases h2 : (pyStrip last.text).length < (pyStrip c.text).length
        · have hrw : dedupGo thr last (c :: rest) = dedupGo thr c rest := by
            rw [dedupGo_cons, if_pos h1, if_pos h2]
          rw [hrw]
          have hrec := ih c hc hrest
          rcases hrec.1 with ⟨h2', t2', heq, hge⟩
          exact ⟨⟨h2', t2', heq, le_trans hcl hge⟩, hrec.2⟩
        · have hrw : dedupGo thr last (c :: rest) = dedupGo thr last rest := by
            rw [dedupGo_cons, if_pos h1, if_neg h2]
          rw [hrw]
          exact ih last (fun x hx => hall x (List.mem_cons_of_mem c hx)) hrest
      · have hrw : dedupGo thr last (c :: rest) = last :: dedupGo thr c rest := by
          rw [dedupGo_cons, if_neg h1]
        rw [hrw]
        have hrec := ih c hc hrest
        rcases hrec.1 with ⟨h2', t2', heq, hge⟩
        have hgap : thr ≤ c.start - last.start := by
          rw [abs_of_nonneg (by linarith)] at h1
          linarith
        constructor
        · exact ⟨last, dedupGo thr c rest, rfl, le_refl _⟩
        · rw [heq, List.chain'_cons]
          constructor
          · exact ⟨le_trans hcl hge, by linarith⟩
          · rw [← heq]
            exact hrec.2
  unfold deduplicateSegments
  cases hs : sortByStart segs with
  | nil => exact List.chain'_nil
  | cons h t =>
    have hsorted : List.Sorted segLE (sortByStart segs) :=
      List.sorted_insertionSort segLE segs
    rw [hs] at hsorted
    rcases List.sorted_cons.1 hsorted with ⟨hhead, htail⟩
    exact (main t h hhead htail).2

/-! ## Post-processor: hallucination filter (utils/transcriber.py, _filter_hallucinations) -/

/-- Counter of exact stripped texts over the whole sequence. -/
def textCount (segs : List Seg) (t : String) : Nat :=
  (segs.map (fun s => pyStrip s.text)).count t

/-- Membership in hallucinated_texts: nonempty stripped text with
count > max_repeat and count > 15 percent of the number of segments
(floats modelled as exact rationals). -/
def isHallucinated (segs : List Seg) (maxRepeat : Nat) (t : String) : Bool :=
  decide (¬ t = "") && decide (maxRepeat < textCount segs t) &&
    decide ((segs.length : ℚ) * (15 / 100) < (textCount segs t : ℚ))

/-- The scanning loop of _filter_hallucinations: drop empty stripped text,
drop no_speech_prob > 0.9, drop flagged repetitive text, drop a text equal to
the previous retained one; otherwise retain and remember the text. -/
def filterHallGo (halluc : String → Bool) : Option String → List Seg → List Seg
  | _, [] => []
  | prev, s :: rest =>
    if pyStrip s.text = "" then filterHallGo halluc prev rest
    else if (9 : ℚ) / 10 < s.noSpeechProb then filterHallGo halluc prev rest
    else if halluc (pyStrip s.text) then filterHallGo halluc prev rest
    else if prev = some (pyStrip s.text) then filterHallGo halluc prev rest
    else s :: filterHallGo halluc (some (pyStrip s.text)) rest

/-- _filter_hallucinations (the empty-input early return coincides with the
scan of the empty list). -/
def filterHallucinations (segs : List Seg) (maxRepeat : Nat) : List Seg :=
  filterHallGo (isHallucinated segs maxRepeat) none segs

/-- Modelled from the spec (claim C5's wording): a segment is removed exactly
when its stripped text is globally flagged (nonempty, more than the repeat
threshold occurrences, above 15 percent of all segments), or empty, or its
no-speech probability exceeds 0.9, or it equals the previous retained text. -/
def hallRemove (segs : List Seg) (maxRepeat : Nat) (prev : Option String) (s : Seg) : Prop :=
  (pyStrip s.text ≠ "" ∧ maxRepeat < textCount segs (pyStrip s.text) ∧
    (segs.length : ℚ) * (15 / 100) < (textCount segs (pyStrip s.text) : ℚ)) ∨
  pyStrip s.text = "" ∨ (9 : ℚ) / 10 < s.noSpeechProb ∨ prev = some (pyStrip s.text)

instance (segs : List Seg) (maxRepeat : Nat) (prev : Option String) (s : Seg) :
    Decidable (hallRemove segs maxRepeat prev s) := by
  unfold hallRemove
  infer_instance

/-- Modelled from the spec: the one-pass scan that removes a segment exactly
when hallRemove holds and otherwise retains it and remembers its text. -/
def hallClaimScan (segs : List Seg) (maxRepeat : Nat) : Option String → List Seg → List Seg
  | _, [] => []
  | prev, s :: rest =>
    if hallRemove segs maxRepeat prev s then hallClaimScan segs maxRepeat prev rest
    else s :: hallClaimScan segs maxRepeat (some (pyStrip s.text)) rest

def hallClaimSpec (segs : List Seg) (maxRepeat : Nat) : List Seg :=
  hallClaimScan segs maxRepeat none segs

theorem filterHallGo_sublist (halluc : String → Bool) :
    ∀ (l : List Seg) (prev : Option String), (filterHallGo halluc prev l).Sublist l := by
  intro l
  induction l with
  | nil => intro prev; exact List.Sublist.refl []
  | cons s rest ih =>
    intro prev
    show (if pyStrip s.text = "" then filterHallGo halluc prev rest
      else if (9 : ℚ) / 10 < s.noSpeechProb then filterHallGo halluc prev rest
      else if halluc (pyStrip s.text) then filterHallGo halluc prev rest
      else if prev = some (pyStrip s.text) then filterHallGo halluc prev rest
      else s :: filterHallGo halluc (some (pyStrip s.text)) rest).Sublist (s :: rest)
    by_cases h1 : pyStrip s.text = ""
    · rw [if_pos h1]; exact (ih prev).cons s
    · rw [if_neg h1]
      by_cases h2 : (9 : ℚ) / 10 < s.noSpeechProb
      · rw [if_pos h2]; exact (ih prev).cons s
      · rw [if_neg h2]
        by_cases h3 : halluc (pyStrip s.text)
        · rw [if_pos h3]; exact (ih prev).cons s
        · rw [if_neg h3]
          by_cases h4 : prev = some (pyStrip s.text)
          · rw [if_pos h4]; exact (ih prev).cons s
          · rw [if_neg h4]; exact (ih (some (pyStrip s.text))).cons₂ s

theorem filterHallGo_eq_claimScan (segs : List Seg) (maxRepeat : Nat) :
    ∀ (l : List Seg) (prev : Option String),
      filterHallGo (isHallucinated segs maxRepeat) prev l =
        hallClaimScan segs maxRepeat prev l := by
  intro l
  induction l with
  | nil => intro prev; rfl
  | cons s rest ih =>
    intro prev
    show (if pyStrip s.text = "" then filterHallGo (isHallucinated segs maxRepeat) prev rest
      else if (9 : ℚ) / 10 < s.noSpeechProb then
        filterHallGo (isHallucinated segs maxRepeat) prev rest
      else if isHallucinated segs maxRepeat (pyStrip s.text) then
        filterHallGo (isHallucinated segs maxRepeat) prev rest
      else if prev = some (pyStrip s.text) then
        filterHallGo (isHallucinated segs maxRepeat) prev rest
      else s :: filterHallGo (isHallucinated segs maxRepeat) (some (pyStrip s.text)) rest) =
      (if hallRemove segs maxRepeat prev s then hallClaimScan segs maxRepeat prev rest
       else s :: hallClaimScan segs maxRepeat (some (pyStrip s.text)) rest)
    have hhall : isHallucinated segs maxRepeat (pyStrip s.text) = true ↔
        (pyStrip s.text ≠ "" ∧ maxRepeat < textCount segs (pyStrip s.text) ∧
          (segs.length : ℚ) * (15 / 100) < (textCount segs (pyStrip s.text) : ℚ)) := by
      unfold isHallucinated
      rw [Bool.and_eq_true, Bool.and_eq_true]
      rw [decide_eq_true_eq, decide_eq_true_eq, decide_eq_true_eq]
      tauto
    by_cases h1 : pyStrip s.text = ""
    · rw [if_pos h1, if_pos (by unfold hallRemove; tauto), ih]
    · rw [if_neg h1]
      by_cases h2 : (9 : ℚ) / 10 < s.noSpeechProb
      · rw [if_pos h2, if_pos (by unfold hallRemove; tauto), ih]
      · rw [if_neg h2]
        by_cases h3 : isHallucinated segs maxRepeat (pyStrip s.text) = true
        · rw [if_pos h3, if_pos (by unfold hallRemove; left; exact hhall.1 h3), ih]
        · rw [if_neg h3]
          by_cases h4 : prev = some (pyStrip s.text)
          · rw [if_pos h4, if_pos (by unfold hallRemove; tauto), ih]
          · rw [if_neg h4]
            have hnot : ¬ hallRemove segs maxRepeat prev s := by
              unfold hallRemove
              rintro (hc | he | hp | hv)
              · exact h3 (hhall.2 hc)
              · exact h1 he
              · exact h2 hp
              · exact h4 hv
            rw [if_neg hnot, ih]

/-- Claim C5: the hallucination filter returns a subsequence of its input
(order preserved, segments unmodified), and a segment is removed exactly when
the global frequency rule flags its text, or its stripped text is empty, or
its no-speech probability exceeds 0.9, or it equals the previous retained
text - as captured by the spec-worded scan. -/
theorem claim_C5_hallucination_filter (segs : List Seg) (maxRepeat : Nat) :
    (filterHallucinations segs maxRepeat).Sublist segs ∧
    filterHallucinations segs maxRepeat = hallClaimSpec segs maxRepeat :=
  ⟨filterHallGo_sublist (isHallucinated segs maxRepeat) segs none,
   filterHallGo_eq_claimScan segs maxRepeat segs none⟩

/-! ## Silence/speech detector (utils/vad.py, detect_speech_segments).
The ffmpeg invocation and stderr parsing are I/O; the embedding starts from
the parsed silence (start, end) pairs and the total duration, exactly the
data the algorithm consumes. -/

/-- Sort key of combined_silences: the silence start. -/
def pairLE (a b : ℚ × ℚ) : Prop := a.1 ≤ b.1

instance : DecidableRel pairLE := fun a b => inferInstanceAs (Decidable (a.1 ≤ b.1))

/-- sorted(zip(starts, ends), key=first) - a stable sort by first component. -/
def sortSilences (sil : List (ℚ × ℚ)) : List (ℚ × ℚ) := List.insertionSort pairLE sil

/-- The silence walk: a gap between the running position and the next silence
start becomes a speech interval; the position then jumps to the silence end;
speech after the last silence up to the duration becomes a trailing interval. -/
def speechGaps (duration : ℚ) : ℚ → List (ℚ × ℚ) → List (ℚ × ℚ)
  | cur, [] => if cur < duration then [(cur, duration)] else []
  | cur, se :: rest =>
    if cur < se.1 then (cur, se.1) :: speechGaps duration se.2 rest
    else speechGaps duration se.2 rest

/-- Python int(): truncation toward zero. -/
def intTrunc (q : ℚ) : Int := if 0 ≤ q then ⌊q⌋ else -⌊-q⌋

/-- Millisecond conversion with padding, clamped to [0, duration]. -/
def padClamp (durMs pad : Int) (p : ℚ × ℚ) : Int × Int :=
  (max 0 (intTrunc (p.1 * 1000) - pad), min durMs (intTrunc (p.2 * 1000) + pad))

/-- The running-position origin and remaining silences: a leading silence
starting before 0.1s is discarded and the position starts at its end. -/
def initialState (sorted : List (ℚ × ℚ)) : ℚ × List (ℚ × ℚ) :=
  match sorted with
  | [] => (0, [])
  | h :: t => if h.1 < 1 / 10 then (h.2, t) else (0, h :: t)

theorem initialState_cons (h : ℚ × ℚ) (t : List (ℚ × ℚ)) :
    initialState (h :: t) = if h.1 < 1 / 10 then (h.2, t) else (0, h :: t) := rfl

/-- detect_speech_segments from the parsed silences and duration. -/
def detect_speech_segments (sil : List (ℚ × ℚ)) (duration : ℚ) (pad : Int) :
    List (Int × Int) :=
  ((speechGaps duration (initialState (sortSilences sil)).1
      (initialState (sortSilences sil)).2).map
    (padClamp (intTrunc (duration * 1000)) pad)).filter (fun p => decide (p.1 < p.2))

/-- Claim C9: the detector discards a leading silence starting below 0.1s and
begins after its end; emits a speech interval per gap between the running
position and the next silence start and a trailing interval when the duration
exceeds the last silence end; pads both sides clamped to [0, duration]; and
keeps only intervals whose padded end strictly exceeds the padded start, so
every returned interval satisfies end > start. -/
theorem claim_C9_vad_intervals :
    (∀ (sil : List (ℚ × ℚ)) (duration : ℚ) (pad : Int),
      ∀ p ∈ detect_speech_segments sil duration pad, p.1 < p.2) ∧
    (∀ (sil : List (ℚ × ℚ)) (duration : ℚ) (pad : Int) (h : ℚ × ℚ) (t : List (ℚ × ℚ)),
      sortSilences sil = h :: t → h.1 < 1 / 10 →
      detect_speech_segments sil duration pad =
        ((speechGaps duration h.2 t).map (padClamp (intTrunc (duration * 1000)) pad)).filter
          (fun p => decide (p.1 < p.2))) ∧
    (∀ (sil : List (ℚ × ℚ)) (duration : ℚ) (pad : Int) (h : ℚ × ℚ) (t : List (ℚ × ℚ)),
      sortSilences sil = h :: t → ¬ h.1 < 1 / 10 →
      detect_speech_segments sil duration pad =
        ((speechGaps duration 0 (h :: t)).map (padClamp (intTrunc (duration * 1000)) pad)).filter
          (fun p => decide (p.1 < p.2))) ∧
    (∀ (duration cur : ℚ) (se : ℚ × ℚ) (rest : List (ℚ × ℚ)),
      (cur < se.1 → speechGaps duration cur (se :: rest) =
        (cur, se.1) :: speechGaps duration se.2 rest) ∧
      (¬ cur < se.1 → speechGaps duration cur (se :: rest) = speechGaps duration se.2 rest)) ∧
    (∀ (duration cur : ℚ),
      speechGaps duration cur [] = if cur < duration then [(cur, duration)] else []) ∧
    (∀ (durMs pad : Int) (p : ℚ × ℚ),
      padClamp durMs pad p =
        (max 0 (intTrunc (p.1 * 1000) - pad), min durMs (intTrunc (p.2 * 1000) + pad))) := by
  refine ⟨?_, ?_, ?_, ?_, ?_, ?_⟩
  · intro sil duration pad p hp
    unfold detect_speech_segments at hp
    have hdec := List.of_mem_filter hp
    exact of_decide_eq_true hdec
  · intro sil duration pad h t hsort hlt
    unfold detect_speech_segments
    rw [hsort, initialState_cons, if_pos hlt]
  · intro sil duration pad h t hsort hlt
    unfold detect_speech_segments
    rw [hsort, initialState_cons, if_neg hlt]
  · intro duration cur se rest
    constructor
    · intro hlt
      show (if cur < se.1 then (cur, se.1) :: speechGaps duration se.2 rest
        else speechGaps duration se.2 rest) = _
      rw [if_pos hlt]
    · intro hlt
      show (if cur < se.1 then (cur, se.1) :: speechGaps duration se.2 rest
        else speechGaps duration se.2 rest) = _
      rw [if_neg hlt]
  · intro duration cur
    rfl
  · intro durMs pad p
    rfl

/-- Witness for C9: silences (0,2) and (5,6) with duration 10; the leading
silence is discarded and the walk starts at 2. -/
theorem claim_C9_witness :
    detect_speech_segments [((0 : ℚ), (2 : ℚ)), (5, 6)] 10 200 =
      ((speechGaps 10 2 [(5, 6)]).map (padClamp (intTrunc (10 * 1000)) 200)).filter
        (fun p => decide (p.1 < p.2)) :=
  claim_C9_vad_intervals.2.1 [((0 : ℚ), (2 : ℚ)), (5, 6)] 10 200 (0, 2) [(5, 6)]
    (by decide) (by norm_num)

end LLMSubs
